import Mathlib

/-!
Verification of the magnetorquer PCB design engine (design.py).

The embedding follows the source closely: Python float arithmetic is modeled
by exact rational arithmetic (ℚ); the radiative thermal solve, which the
source performs with a seeded numeric root-finder on the quartic heat
balance, is modeled over ℝ by the exact nonnegative root of that quartic,
the root the seeded solver converges to; the sentinel value np.inf returned
by calculate_resistance is modeled by Option (none = infinite resistance),
and the IEEE identity V / inf = 0 is written out at the one place the code
relies on it.
-/

/-- Configuration record, mirroring the dataclass PCBConfig
    (design.py lines 14-45). All dimensional fields are SI, as in the JSON
    input; num_layers is integral. -/
structure PCBConfig where
  vacuum_permeability : ℚ
  copper_resistivity : ℚ
  temperature_coefficient : ℚ
  oz_to_m : ℚ
  current_density_limit : ℚ
  thermal_conductivity_copper : ℚ
  thermal_conductivity_fr4 : ℚ
  fr4_thickness : ℚ
  surface_area_multiplier : ℚ
  num_layers : ℤ
  copper_weight : ℚ
  max_power : ℚ
  voltage : ℚ
  inner_length : ℚ
  inner_width : ℚ
  outer_length : ℚ
  outer_width : ℚ
  operating_temp : ℚ
  ambient_temp : ℚ
  min_trace_width : ℚ
  max_trace_width : ℚ
  min_trace_spacing : ℚ

/-- Derived attribute set in the designer constructor (line 85):
    copper_thickness = copper_weight * oz_to_m. -/
def copper_thickness (cfg : PCBConfig) : ℚ :=
  cfg.copper_weight * cfg.oz_to_m

/-- Derived attribute set in the designer constructor (line 86):
    coil_layers = num_layers - 1 (one layer reserved for connections). -/
def coil_layers (cfg : PCBConfig) : ℤ :=
  cfg.num_layers - 1

/-- Python int() truncation toward zero, applied to exact rationals. -/
def pyint (q : ℚ) : ℤ :=
  if 0 ≤ q then ⌊q⌋ else -⌊-q⌋

/-- calculate_max_turns (design.py lines 88-112). -/
def calculate_max_turns (cfg : PCBConfig) (trace_width : ℚ) : ℤ :=
  if trace_width ≤ 0 then 0
  else
    let min_inner_clearance := trace_width + 2 * cfg.min_trace_spacing
    let effective_inner_length := cfg.inner_length + 2 * min_inner_clearance
    let effective_inner_width := cfg.inner_width + 2 * min_inner_clearance
    let available_height := (cfg.outer_length - effective_inner_length) / 2
    let available_width := (cfg.outer_width - effective_inner_width) / 2
    if available_height ≤ 0 ∨ available_width ≤ 0 then 0
    else
      let turn_pitch := trace_width + cfg.min_trace_spacing
      max 1 (min (pyint (available_height / turn_pitch))
                 (pyint (available_width / turn_pitch)))

/-- calculate_turn_length (design.py lines 114-131). Both branches of the
    source if-statement assign the same connection length, so it is written
    once here. -/
def calculate_turn_length (cfg : PCBConfig) (turn_number : ℕ) (trace_width : ℚ) : ℚ :=
  let offset := (turn_number : ℚ) * (trace_width + cfg.min_trace_spacing)
  let current_length := cfg.outer_length - 2 * offset
  let current_width := cfg.outer_width - 2 * offset
  let perimeter := 2 * (current_length + current_width)
  let connection_length := trace_width + cfg.min_trace_spacing
  perimeter + connection_length

/-- calculate_area (design.py lines 133-138): the signed product of the
    offset rectangle dimensions, with no clamping in the source. -/
def calculate_area (cfg : PCBConfig) (turn_number : ℕ) (trace_width : ℚ) : ℚ :=
  let offset := (turn_number : ℚ) * (trace_width + cfg.min_trace_spacing)
  let length := cfg.outer_length - 2 * offset
  let width := cfg.outer_width - 2 * offset
  length * width

/-- calculate_resistance (design.py lines 140-151). The source returns
    np.inf when no coil fits; that sentinel is modeled by none. -/
def calculate_resistance (cfg : PCBConfig) (trace_width : ℚ) : Option ℚ :=
  let num_turns := calculate_max_turns cfg trace_width
  if num_turns ≤ 0 ∨ trace_width ≤ 0 then none
  else
    let total_length :=
      (((List.range num_turns.toNat).map
          fun turn => calculate_turn_length cfg turn trace_width).sum)
        * (coil_layers cfg : ℚ)
    let cross_section := copper_thickness cfg * trace_width
    some (cfg.copper_resistivity * total_length / cross_section)

/-- calculate_current (design.py lines 153-175) for a finite resistance
    argument. -/
def calculate_current (cfg : PCBConfig) (resistance trace_width : ℚ) : ℚ :=
  if resistance ≤ 0 then 0
  else
    let max_current_from_power := cfg.max_power / cfg.voltage
    let cross_section := trace_width * copper_thickness cfg
    let max_current_from_density := cfg.current_density_limit * cross_section
    let current_from_resistance := cfg.voltage / resistance
    min current_from_resistance (min max_current_from_power max_current_from_density)

/-- calculate_current applied to the possibly infinite output of
    calculate_resistance. For resistance = np.inf the guard inf <= 0 is
    false and the Ohm bound evaluates to V / inf = 0 in IEEE arithmetic, so
    the source computes min(0, Pmax/V, Jmax*w*t); that is written out in
    the none branch. -/
def calculate_current_opt (cfg : PCBConfig) (resistance : Option ℚ) (trace_width : ℚ) : ℚ :=
  match resistance with
  | some r => calculate_current cfg r trace_width
  | none =>
      min 0 (min (cfg.max_power / cfg.voltage)
                 (cfg.current_density_limit * (trace_width * copper_thickness cfg)))

/-- Stefan-Boltzmann constant as hard-coded at design.py line 180. -/
def stefan_boltzmann : ℝ := 5.67e-8

/-- Radiating area, design.py line 183: surface_area_multiplier times the
    outer board rectangle. -/
def radiating_area (cfg : PCBConfig) : ℚ :=
  cfg.surface_area_multiplier * cfg.outer_length * cfg.outer_width

/-- calculate_temperature_rise (design.py lines 177-194). The source hard
    codes T_space = 273.15 K (not the configured ambient temperature),
    seeds fsolve at T_space + 5 and returns T_final - T_space. The seeded
    root solve of the quartic heat balance
    power = 0.9 * sigma * area * (T^4 - T_space^4)
    is modeled by its exact nonnegative root
    T_final = (power / (0.9 * sigma * area) + T_space^4)^(1/4),
    written with two square roots. -/
noncomputable def calculate_temperature_rise (cfg : PCBConfig) (power : ℝ) : ℝ :=
  let area : ℝ := ((radiating_area cfg : ℚ) : ℝ)
  let quartic := power / (0.9 * stefan_boltzmann * area) + 273.15 ^ 4
  Real.sqrt (Real.sqrt quartic) - 273.15

/-- calculate_inductance (design.py lines 196-221): Wheeler formula for
    rectangular coils, scaled once by the number of coil layers. -/
def calculate_inductance (cfg : PCBConfig) (trace_width : ℚ) : ℚ :=
  let num_turns := calculate_max_turns cfg trace_width
  if num_turns ≤ 0 then 0
  else
    let spacing := trace_width + cfg.min_trace_spacing
    let avg_length := cfg.outer_length - spacing * (num_turns : ℚ)
    let avg_width := cfg.outer_width - spacing * (num_turns : ℚ)
    let avg_diameter := (avg_length + avg_width) / 2
    31.33 * cfg.vacuum_permeability * (num_turns : ℚ) ^ 2 * avg_diameter / 8
      * (coil_layers cfg : ℚ)

/-- calculate_magnetic_moment (design.py lines 277-285). -/
def calculate_magnetic_moment (cfg : PCBConfig) (trace_width current : ℚ) : ℚ :=
  let num_turns := calculate_max_turns cfg trace_width
  if num_turns ≤ 0 ∨ current ≤ 0 then 0
  else
    (((List.range num_turns.toNat).map
        fun turn => calculate_area cfg turn trace_width).sum)
      * current * (coil_layers cfg : ℚ)

/-- Current of the pipeline at a candidate width: the composition
    calculate_current(calculate_resistance(w), w) used at design.py
    lines 293-294 and 330-331. -/
def currentOf (cfg : PCBConfig) (trace_width : ℚ) : ℚ :=
  calculate_current_opt cfg (calculate_resistance cfg trace_width) trace_width

/-- Dissipated power of a candidate, P = I * V (design.py line 302). -/
def powerOf (cfg : PCBConfig) (trace_width : ℚ) : ℚ :=
  currentOf cfg trace_width * cfg.voltage

/-- check_constraints (design.py lines 287-307): the conjunction of the
    three pass conditions of the early-return chain (manufacturing range,
    current density, thermal). -/
def check_constraints (cfg : PCBConfig) (trace_width : ℚ) : Prop :=
  (cfg.min_trace_width ≤ trace_width ∧ trace_width ≤ cfg.max_trace_width) ∧
  currentOf cfg trace_width / (trace_width * copper_thickness cfg)
      ≤ cfg.current_density_limit ∧
  calculate_temperature_rise cfg ((powerOf cfg trace_width : ℚ) : ℝ)
      ≤ (cfg.operating_temp : ℝ) - (cfg.ambient_temp : ℝ)

/-- Objective of the sweep: magnetic moment of the candidate at a width
    (design.py line 332). -/
def momentAt (cfg : PCBConfig) (trace_width : ℚ) : ℚ :=
  calculate_magnetic_moment cfg trace_width (currentOf cfg trace_width)

/-- The feasible subsequence of the sampled widths, i.e. the masked arrays
    valid_widths / valid_moments of design.py lines 320, 328-343, 360-365.
    The feasibility predicate compares real-valued roots, so it is only
    classically decidable; the instance is supplied explicitly. -/
noncomputable def feasibleList (cfg : PCBConfig) (widths : List ℚ) : List ℚ :=
  widths.filter fun w => @decide (check_constraints cfg w) (Classical.propDecidable _)

/-- First-occurrence argmax over (width, moment) pairs by the moment
    component, the semantics of np.argmax at design.py line 368: the
    earliest index attaining the maximum wins. -/
def argmaxPair : List (ℚ × ℚ) → Option (ℚ × ℚ)
  | [] => none
  | p :: ps =>
      match argmaxPair ps with
      | none => some p
      | some q => if q.2 ≤ p.2 then some p else some q

/-- optimize (design.py lines 309-406), over an explicitly given sample of
    widths (the source samples num_points log-spaced widths). When no
    sampled width is feasible, the summary block at lines 350-358 calls
    np.min on the empty masked array, which raises ValueError before the
    degenerate fallback at lines 389-391 can run; this is the error branch.
    Otherwise the selection is the first-occurrence argmax of the moment
    over the feasible widths, returned with its moment
    (best_moment_width, best_moment). -/
noncomputable def optimize (cfg : PCBConfig) (widths : List ℚ) : Except String (ℚ × ℚ) :=
  let valid := feasibleList cfg widths
  match argmaxPair (valid.map fun w => (w, momentAt cfg w)) with
  | none =>
      Except.error "zero-size array to reduction operation minimum which has no identity"
  | some p => Except.ok p

/-- Model of the value returned by scipy fsolve at design.py line 193: the
    final iterate x together with the integer status flag ier (ier = 1
    exactly when the solver converged). -/
structure FsolveResult where
  x : ℝ
  ier : ℤ

/-- The return path of calculate_temperature_rise in terms of the solver
    outcome: the source keeps component [0] of the fsolve output and never
    inspects the convergence status, returning x - 273.15 unconditionally. -/
def temperature_rise_from_solver (cfg : PCBConfig) (power : ℝ)
    (result : FsolveResult) : ℝ :=
  result.x - 273.15

/-- Concrete configuration used for witnesses: a 1 m by 1 m board with no
    inner keepout, unit electrical constants, 2 layers (1 coil layer). At
    trace width 1/10 it yields 4 turns, resistance 116, current 1/116 and
    moment 27/1450. -/
def cfgW : PCBConfig where
  vacuum_permeability := 2
  copper_resistivity := 1
  temperature_coefficient := 0
  oz_to_m := 1
  current_density_limit := 1
  thermal_conductivity_copper := 400
  thermal_conductivity_fr4 := 1
  fr4_thickness := 1
  surface_area_multiplier := 2
  num_layers := 2
  copper_weight := 1
  max_power := 1
  voltage := 1
  inner_length := 0
  inner_width := 0
  outer_length := 1
  outer_width := 1
  operating_temp := 100
  ambient_temp := 0
  min_trace_width := 1/100
  max_trace_width := 1/2
  min_trace_spacing := 0

/-- cfgW with the inner keepout grown to the full outer rectangle: no turn
    fits at any width. -/
def cfgX : PCBConfig :=
  { cfgW with inner_length := 1, inner_width := 1 }

/-- cfgW with the operating temperature limit below the ambient
    temperature: every candidate fails the thermal check. -/
def cfg3 : PCBConfig :=
  { cfgW with operating_temp := 0, ambient_temp := 50 }

/-- cfgW with a short outer length, so that deep turn offsets make exactly
    one rectangle dimension negative. -/
def cfg7 : PCBConfig :=
  { cfgW with outer_length := 1/10 }

/-! ## Helper lemmas: concrete evaluations -/

theorem range_four_eq : List.range (Int.toNat 4) = [0, 1, 2, 3] := rfl

theorem mtW : calculate_max_turns cfgW (1/10) = 4 := by
  simp only [calculate_max_turns, cfgW, pyint]
  norm_num

theorem mtW2 : calculate_max_turns cfgW (2/10) = 1 := by
  simp only [calculate_max_turns, cfgW, pyint]
  norm_num

theorem resW : calculate_resistance cfgW (1/10) = some 116 := by
  simp only [calculate_resistance, mtW, calculate_turn_length, copper_thickness, coil_layers,
    range_four_eq]
  norm_num [cfgW]

theorem curW : currentOf cfgW (1/10) = 1/116 := by
  simp only [currentOf, resW, calculate_current_opt, calculate_current, copper_thickness]
  norm_num [cfgW]

theorem powW : powerOf cfgW (1/10) = 1/116 := by
  simp only [powerOf, curW]
  norm_num [cfgW]

theorem momW : momentAt cfgW (1/10) = 27/1450 := by
  simp only [momentAt, curW, calculate_magnetic_moment, mtW, calculate_area, coil_layers,
    range_four_eq]
  norm_num [cfgW]

theorem indW : calculate_inductance cfgW (1/10) = 9399/125 := by
  simp only [calculate_inductance, mtW, coil_layers]
  norm_num [cfgW]

theorem mtW3 : calculate_max_turns { cfgW with num_layers := 3 } (1/10) = 4 :=
  (rfl : calculate_max_turns { cfgW with num_layers := 3 } (1/10) =
    calculate_max_turns cfgW (1/10)).trans mtW

theorem indW3 : calculate_inductance { cfgW with num_layers := 3 } (1/10) = 2 * (9399/125) := by
  simp only [calculate_inductance, mtW3, coil_layers]
  norm_num [cfgW]

theorem mtX : calculate_max_turns cfgX (1/10) = 0 := by
  simp only [calculate_max_turns, cfgX, cfgW, pyint]
  norm_num

theorem resX : calculate_resistance cfgX (1/10) = none := by
  simp only [calculate_resistance, mtX]
  norm_num

theorem curX : currentOf cfgX (1/10) = 0 := by
  simp only [currentOf, resX, calculate_current_opt, copper_thickness]
  norm_num [cfgX, cfgW, min_def]

theorem powX : powerOf cfgX (1/10) = 0 := by
  simp only [powerOf, curX, zero_mul]

theorem mt3 : calculate_max_turns cfg3 (1/10) = 4 := by
  simp only [calculate_max_turns, cfg3, cfgW, pyint]
  norm_num

theorem res3 : calculate_resistance cfg3 (1/10) = some 116 := by
  simp only [calculate_resistance, mt3, calculate_turn_length, copper_thickness, coil_layers,
    range_four_eq]
  norm_num [cfg3, cfgW]

theorem cur3 : currentOf cfg3 (1/10) = 1/116 := by
  simp only [currentOf, res3, calculate_current_opt, calculate_current, copper_thickness]
  norm_num [cfg3, cfgW]

theorem pow3 : powerOf cfg3 (1/10) = 1/116 := by
  simp only [powerOf, cur3]
  norm_num [cfg3, cfgW]

/-! ## Helper lemmas: thermal model -/

theorem stefan_boltzmann_pos : (0:ℝ) < stefan_boltzmann := by
  norm_num [stefan_boltzmann]

theorem sqrt_sqrt_le_of_le {c B : ℝ} (hB : 0 ≤ B) (h : c ≤ B ^ 4) :
    Real.sqrt (Real.sqrt c) ≤ B := by
  have h2 : Real.sqrt c ≤ B ^ 2 := by
    have h4 : (B:ℝ) ^ 4 = (B ^ 2) ^ 2 := by ring
    calc Real.sqrt c ≤ Real.sqrt (B ^ 4) := Real.sqrt_le_sqrt h
      _ = B ^ 2 := by rw [h4]; exact Real.sqrt_sq (by positivity)
  calc Real.sqrt (Real.sqrt c) ≤ Real.sqrt (B ^ 2) := Real.sqrt_le_sqrt h2
    _ = B := Real.sqrt_sq hB

theorem le_sqrt_sqrt_of_le {c B : ℝ} (hB : 0 ≤ B) (h : B ^ 4 ≤ c) :
    B ≤ Real.sqrt (Real.sqrt c) := by
  have h2 : B ^ 2 ≤ Real.sqrt c := by
    calc B ^ 2 = Real.sqrt ((B ^ 2) ^ 2) := (Real.sqrt_sq (by positivity)).symm
      _ = Real.sqrt (B ^ 4) := by norm_num [show ((B:ℝ) ^ 2) ^ 2 = B ^ 4 from by ring]
      _ ≤ Real.sqrt c := Real.sqrt_le_sqrt h
  calc B = Real.sqrt (B ^ 2) := (Real.sqrt_sq hB).symm
    _ ≤ Real.sqrt (Real.sqrt c) := Real.sqrt_le_sqrt h2

theorem temperature_rise_nonneg (cfg : PCBConfig) (P : ℝ) (hP : 0 ≤ P)
    (hA : 0 < radiating_area cfg) : 0 ≤ calculate_temperature_rise cfg P := by
  simp only [calculate_temperature_rise]
  have hden : (0:ℝ) < 0.9 * stefan_boltzmann * ((radiating_area cfg : ℚ) : ℝ) :=
    mul_pos (mul_pos (by norm_num) stefan_boltzmann_pos) (by exact_mod_cast hA)
  have hdiv : 0 ≤ P / (0.9 * stefan_boltzmann * ((radiating_area cfg : ℚ) : ℝ)) :=
    div_nonneg hP hden.le
  have h4 : (0:ℝ) ≤ 273.15 ^ 4 := by positivity
  have hq : (273.15:ℝ) ^ 4 ≤
      P / (0.9 * stefan_boltzmann * ((radiating_area cfg : ℚ) : ℝ)) + 273.15 ^ 4 := by
    linarith
  have h3 := le_sqrt_sqrt_of_le (by norm_num : (0:ℝ) ≤ 273.15) hq
  linarith

/-! ## Helper lemmas: current and power bounds -/

theorem calculate_current_nonneg (cfg : PCBConfig) (R w : ℚ)
    (hV : 0 < cfg.voltage) (hP : 0 ≤ cfg.max_power)
    (hJ : 0 ≤ cfg.current_density_limit) (ht : 0 ≤ copper_thickness cfg) (hw : 0 ≤ w) :
    0 ≤ calculate_current cfg R w := by
  simp only [calculate_current]
  split_ifs with h
  · exact le_refl 0
  · have hR : 0 < R := not_le.mp h
    exact le_min (div_nonneg hV.le hR.le)
      (le_min (div_nonneg hP hV.le) (mul_nonneg hJ (mul_nonneg hw ht)))

theorem calculate_current_le_power_bound (cfg : PCBConfig) (R w : ℚ)
    (hV : 0 < cfg.voltage) (hP : 0 ≤ cfg.max_power) :
    calculate_current cfg R w ≤ cfg.max_power / cfg.voltage := by
  simp only [calculate_current]
  split_ifs with h
  · exact div_nonneg hP hV.le
  · exact le_trans (min_le_right _ _) (min_le_left _ _)

theorem calculate_current_opt_nonneg (cfg : PCBConfig) (r : Option ℚ) (w : ℚ)
    (hV : 0 < cfg.voltage) (hP : 0 ≤ cfg.max_power)
    (hJ : 0 ≤ cfg.current_density_limit) (ht : 0 ≤ copper_thickness cfg) (hw : 0 ≤ w) :
    0 ≤ calculate_current_opt cfg r w := by
  cases r with
  | some R => exact calculate_current_nonneg cfg R w hV hP hJ ht hw
  | none =>
      simp only [calculate_current_opt]
      exact le_min (le_refl 0)
        (le_min (div_nonneg hP hV.le) (mul_nonneg hJ (mul_nonneg hw ht)))

theorem calculate_current_opt_le_power_bound (cfg : PCBConfig) (r : Option ℚ) (w : ℚ)
    (hV : 0 < cfg.voltage) (hP : 0 ≤ cfg.max_power) :
    calculate_current_opt cfg r w ≤ cfg.max_power / cfg.voltage := by
  cases r with
  | some R => exact calculate_current_le_power_bound cfg R w hV hP
  | none =>
      simp only [calculate_current_opt]
      exact le_trans (min_le_right _ _) (min_le_left _ _)

theorem calculate_current_opt_mul_voltage_le (cfg : PCBConfig) (r : Option ℚ) (w : ℚ)
    (hV : 0 < cfg.voltage) (hP : 0 ≤ cfg.max_power) :
    calculate_current_opt cfg r w * cfg.voltage ≤ cfg.max_power := by
  have h := calculate_current_opt_le_power_bound cfg r w hV hP
  have h2 := mul_le_mul_of_nonneg_right h hV.le
  rwa [div_mul_cancel₀ _ hV.ne'] at h2

theorem powerOf_le_max (cfg : PCBConfig) (w : ℚ)
    (hV : 0 < cfg.voltage) (hP : 0 ≤ cfg.max_power) :
    powerOf cfg w ≤ cfg.max_power :=
  calculate_current_opt_mul_voltage_le cfg _ w hV hP

/-! ## Helper lemmas: geometry -/

theorem pyint_of_nonneg {q : ℚ} (h : 0 ≤ q) : pyint q = ⌊q⌋ := if_pos h

theorem calculate_max_turns_nonneg (cfg : PCBConfig) (w : ℚ) :
    0 ≤ calculate_max_turns cfg w := by
  simp only [calculate_max_turns]
  split_ifs with h1 h2
  · exact le_refl 0
  · exact le_refl 0
  · exact le_trans zero_le_one (le_max_left _ _)

/-! ## Helper lemmas: feasibility of the concrete configurations -/

theorem check_constraints_cfgW : check_constraints cfgW (1/10) := by
  simp only [check_constraints]
  refine ⟨⟨by norm_num [cfgW], by norm_num [cfgW]⟩, ?_, ?_⟩
  · rw [curW]
    norm_num [copper_thickness, cfgW]
  · rw [powW]
    simp only [calculate_temperature_rise]
    have hA : radiating_area cfgW = 2 := by norm_num [radiating_area, cfgW]
    rw [hA]
    have h1 : Real.sqrt (Real.sqrt (((1/116:ℚ):ℝ) / (0.9 * stefan_boltzmann * ((2:ℚ):ℝ))
        + 273.15 ^ 4)) ≤ 373.15 := by
      apply sqrt_sqrt_le_of_le (by norm_num)
      norm_num [stefan_boltzmann]
    have h2 : (cfgW.operating_temp : ℝ) = 100 := by norm_num [cfgW]
    have h3 : (cfgW.ambient_temp : ℝ) = 0 := by norm_num [cfgW]
    rw [h2, h3]
    linarith

theorem check_constraints_cfgX : check_constraints cfgX (1/10) := by
  simp only [check_constraints]
  refine ⟨⟨by norm_num [cfgX, cfgW], by norm_num [cfgX, cfgW]⟩, ?_, ?_⟩
  · rw [curX]
    norm_num [cfgX, cfgW]
  · rw [powX]
    simp only [calculate_temperature_rise]
    have h1 : Real.sqrt (Real.sqrt (((0:ℚ):ℝ) / (0.9 * stefan_boltzmann
        * ((radiating_area cfgX : ℚ):ℝ)) + 273.15 ^ 4)) ≤ 273.15 := by
      apply sqrt_sqrt_le_of_le (by norm_num)
      norm_num
    have h2 : (cfgX.operating_temp : ℝ) = 100 := by norm_num [cfgX, cfgW]
    have h3 : (cfgX.ambient_temp : ℝ) = 0 := by norm_num [cfgX, cfgW]
    rw [h2, h3]
    linarith

theorem not_check_constraints_cfg3 : ¬ check_constraints cfg3 (1/10) := by
  intro h
  have h3 := h.2.2
  rw [pow3] at h3
  have hr : 0 ≤ calculate_temperature_rise cfg3 ((1/116 : ℚ) : ℝ) :=
    temperature_rise_nonneg cfg3 _ (by norm_num) (by norm_num [radiating_area, cfg3, cfgW])
  have ho : (cfg3.operating_temp : ℝ) = 0 := by norm_num [cfg3, cfgW]
  have ha : (cfg3.ambient_temp : ℝ) = 50 := by norm_num [cfg3, cfgW]
  rw [ho, ha] at h3
  linarith

/-! ## Helper lemmas: argmaxPair and feasibleList -/

theorem argmaxPair_eq_none {l : List (ℚ × ℚ)} (h : argmaxPair l = none) : l = [] := by
  cases l with
  | nil => rfl
  | cons p ps =>
      exfalso
      simp only [argmaxPair] at h
      cases hps : argmaxPair ps with
      | none => simp [hps] at h
      | some q =>
          rw [hps] at h
          dsimp only at h
          split at h <;> simp at h

theorem argmaxPair_mem {l : List (ℚ × ℚ)} {p : ℚ × ℚ} (h : argmaxPair l = some p) :
    p ∈ l := by
  induction l generalizing p with
  | nil => simp [argmaxPair] at h
  | cons a as ih =>
      simp only [argmaxPair] at h
      cases has : argmaxPair as with
      | none =>
          rw [has] at h
          dsimp only at h
          have := Option.some.inj h
          subst this
          exact List.mem_cons_self _ _
      | some b =>
          rw [has] at h
          dsimp only at h
          by_cases hb : b.2 ≤ a.2
          · rw [if_pos hb] at h
            have := Option.some.inj h
            subst this
            exact List.mem_cons_self _ _
          · rw [if_neg hb] at h
            have := Option.some.inj h
            subst this
            exact List.mem_cons_of_mem _ (ih has)

theorem argmaxPair_le {l : List (ℚ × ℚ)} {p : ℚ × ℚ} (h : argmaxPair l = some p) :
    ∀ q ∈ l, q.2 ≤ p.2 := by
  induction l generalizing p with
  | nil => simp [argmaxPair] at h
  | cons a as ih =>
      intro q hq
      simp only [argmaxPair] at h
      cases has : argmaxPair as with
      | none =>
          have hnil := argmaxPair_eq_none has
          subst hnil
          rw [has] at h
          dsimp only at h
          have := Option.some.inj h
          subst this
          rcases List.mem_cons.mp hq with rfl | habs
          · exact le_refl _
          · simp at habs
      | some b =>
          rw [has] at h
          dsimp only at h
          by_cases hb : b.2 ≤ a.2
          · rw [if_pos hb] at h
            have := Option.some.inj h
            subst this
            rcases List.mem_cons.mp hq with rfl | hmem
            · exact le_refl _
            · exact le_trans (ih has q hmem) hb
          · rw [if_neg hb] at h
            have := Option.some.inj h
            subst this
            rcases List.mem_cons.mp hq with rfl | hmem
            · exact (not_le.mp hb).le
            · exact ih has q hmem

theorem argmaxPair_first {l : List (ℚ × ℚ)} {p : ℚ × ℚ} (h : argmaxPair l = some p) :
    ∃ l₁ l₂, l = l₁ ++ p :: l₂ ∧ ∀ q ∈ l₁, q.2 < p.2 := by
  induction l generalizing p with
  | nil => simp [argmaxPair] at h
  | cons a as ih =>
      simp only [argmaxPair] at h
      cases has : argmaxPair as with
      | none =>
          rw [has] at h
          dsimp only at h
          have := Option.some.inj h
          subst this
          exact ⟨[], as, rfl, by simp⟩
      | some b =>
          rw [has] at h
          dsimp only at h
          by_cases hb : b.2 ≤ a.2
          · rw [if_pos hb] at h
            have := Option.some.inj h
            subst this
            exact ⟨[], as, rfl, by simp⟩
          · rw [if_neg hb] at h
            have := Option.some.inj h
            subst this
            obtain ⟨l₁, l₂, heq, hlt⟩ := ih has
            refine ⟨a :: l₁, l₂, by rw [heq]; rfl, ?_⟩
            intro q hq
            rcases List.mem_cons.mp hq with rfl | hmem
            · exact not_le.mp hb
            · exact hlt q hmem

theorem feasibleList_nil (cfg : PCBConfig) : feasibleList cfg [] = [] := rfl

theorem feasibleList_cons_pos {cfg : PCBConfig} {w : ℚ} (ws : List ℚ)
    (hc : check_constraints cfg w) :
    feasibleList cfg (w :: ws) = w :: feasibleList cfg ws := by
  simp only [feasibleList, List.filter_cons]
  rw [if_pos (@decide_eq_true (check_constraints cfg w) (Classical.propDecidable _) hc)]

theorem feasibleList_cons_neg {cfg : PCBConfig} {w : ℚ} (ws : List ℚ)
    (hc : ¬ check_constraints cfg w) :
    feasibleList cfg (w :: ws) = feasibleList cfg ws := by
  simp only [feasibleList, List.filter_cons]
  rw [if_neg]
  intro hd
  exact hc (@of_decide_eq_true (check_constraints cfg w) (Classical.propDecidable _) hd)

theorem mem_feasibleList {cfg : PCBConfig} {w : ℚ} {ws : List ℚ} :
    w ∈ feasibleList cfg ws ↔ w ∈ ws ∧ check_constraints cfg w := by
  simp only [feasibleList, List.mem_filter]
  constructor
  · rintro ⟨h1, h2⟩
    exact ⟨h1, @of_decide_eq_true (check_constraints cfg w) (Classical.propDecidable _) h2⟩
  · rintro ⟨h1, h2⟩
    exact ⟨h1, @decide_eq_true (check_constraints cfg w) (Classical.propDecidable _) h2⟩

theorem feasibleList_pairwise {cfg : PCBConfig} {ws : List ℚ}
    (h : ws.Pairwise (· ≤ ·)) : (feasibleList cfg ws).Pairwise (· ≤ ·) := by
  simp only [feasibleList]
  exact h.filter _

theorem optimize_cfgW_eval : optimize cfgW [1/10] = Except.ok (1/10, 27/1450) := by
  have h1 : feasibleList cfgW [1/10] = [1/10] := by
    rw [feasibleList_cons_pos _ check_constraints_cfgW, feasibleList_nil]
  simp only [optimize, h1, List.map_cons, List.map_nil, momW]
  rfl

/-! ## Helper lemmas: monotonicity core for the turn count -/

theorem turns_core_mono {a₁ a₂ b₁ b₂ p₁ p₂ : ℚ} (ha : 0 < a₂) (hb : 0 < b₂)
    (haa : a₂ ≤ a₁) (hbb : b₂ ≤ b₁) (hp : 0 < p₁) (hpp : p₁ ≤ p₂) :
    max 1 (min (pyint (a₂ / p₂)) (pyint (b₂ / p₂))) ≤
      max 1 (min (pyint (a₁ / p₁)) (pyint (b₁ / p₁))) := by
  have hp2 : 0 < p₂ := lt_of_lt_of_le hp hpp
  have hda : a₂ / p₂ ≤ a₁ / p₁ := div_le_div₀ (ha.le.trans haa) haa hp hpp
  have hdb : b₂ / p₂ ≤ b₁ / p₁ := div_le_div₀ (hb.le.trans hbb) hbb hp hpp
  rw [pyint_of_nonneg (div_nonneg ha.le hp2.le), pyint_of_nonneg (div_nonneg hb.le hp2.le),
    pyint_of_nonneg (div_nonneg (ha.le.trans haa) hp.le),
    pyint_of_nonneg (div_nonneg (hb.le.trans hbb) hp.le)]
  exact max_le_max (le_refl 1) (min_le_min (Int.floor_mono hda) (Int.floor_mono hdb))

/-! ## Claims -/

/-- C1: for every resistance R > 0 and every trace width w, calculate_current
    returns exactly the minimum of the Ohm bound V/R, the power bound
    Pmax/V and the density bound Jmax * (w * copper_thickness), and the
    result never exceeds any one of the three bounds. -/
theorem calculate_current_three_way_min (cfg : PCBConfig) (R w : ℚ) (hR : 0 < R) :
    calculate_current cfg R w =
      min (cfg.voltage / R)
        (min (cfg.max_power / cfg.voltage)
             (cfg.current_density_limit * (w * copper_thickness cfg))) ∧
    calculate_current cfg R w ≤ cfg.voltage / R ∧
    calculate_current cfg R w ≤ cfg.max_power / cfg.voltage ∧
    calculate_current cfg R w ≤ cfg.current_density_limit * (w * copper_thickness cfg) := by
  have heq : calculate_current cfg R w =
      min (cfg.voltage / R)
        (min (cfg.max_power / cfg.voltage)
             (cfg.current_density_limit * (w * copper_thickness cfg))) := by
    simp only [calculate_current, if_neg (not_le.mpr hR)]
  refine ⟨heq, ?_, ?_, ?_⟩ <;> rw [heq]
  · exact min_le_left _ _
  · exact le_trans (min_le_right _ _) (min_le_left _ _)
  · exact le_trans (min_le_right _ _) (min_le_right _ _)

/-- C1 witness: the three-way minimum law instantiated at cfgW with
    resistance 2 and width 1/10. -/
theorem calculate_current_three_way_min_witness :
    (0:ℚ) < 2 ∧
    (calculate_current cfgW 2 (1/10) =
      min (cfgW.voltage / 2)
        (min (cfgW.max_power / cfgW.voltage)
             (cfgW.current_density_limit * (1/10 * copper_thickness cfgW))) ∧
    calculate_current cfgW 2 (1/10) ≤ cfgW.voltage / 2 ∧
    calculate_current cfgW 2 (1/10) ≤ cfgW.max_power / cfgW.voltage ∧
    calculate_current cfgW 2 (1/10) ≤ cfgW.current_density_limit * (1/10 * copper_thickness cfgW)) :=
  ⟨by norm_num, calculate_current_three_way_min cfgW 2 (1/10) (by norm_num)⟩

/-- C8: within positive manufacturing bounds and with nonnegative trace
    spacing, the turn count is non-increasing in the trace width. -/
theorem calculate_max_turns_antitone (cfg : PCBConfig) (w₁ w₂ : ℚ)
    (hmin : 0 < cfg.min_trace_width) (hs : 0 ≤ cfg.min_trace_spacing)
    (hb1 : cfg.min_trace_width ≤ w₁) (h12 : w₁ < w₂) (hb2 : w₂ ≤ cfg.max_trace_width) :
    calculate_max_turns cfg w₂ ≤ calculate_max_turns cfg w₁ := by
  have hw1 : 0 < w₁ := hmin.trans_le hb1
  have hw2 : 0 < w₂ := hw1.trans h12
  simp only [calculate_max_turns, if_neg (not_le.mpr hw1), if_neg (not_le.mpr hw2)]
  by_cases hg2 : ((cfg.outer_length - (cfg.inner_length + 2 * (w₂ + 2 * cfg.min_trace_spacing))) / 2 ≤ 0 ∨
      (cfg.outer_width - (cfg.inner_width + 2 * (w₂ + 2 * cfg.min_trace_spacing))) / 2 ≤ 0)
  · rw [if_pos hg2]
    split_ifs with h
    · exact le_refl 0
    · exact le_trans zero_le_one (le_max_left _ _)
  · rw [if_neg hg2]
    push_neg at hg2
    obtain ⟨hh2, hv2⟩ := hg2
    have hg1 : ¬((cfg.outer_length - (cfg.inner_length + 2 * (w₁ + 2 * cfg.min_trace_spacing))) / 2 ≤ 0 ∨
        (cfg.outer_width - (cfg.inner_width + 2 * (w₁ + 2 * cfg.min_trace_spacing))) / 2 ≤ 0) := by
      push_neg
      constructor
      · linarith
      · linarith
    rw [if_neg hg1]
    exact turns_core_mono hh2 hv2 (by linarith) (by linarith) (by linarith) (by linarith)

/-- C8 witness: the antitone law instantiated at cfgW with widths 1/10 and
    2/10. -/
theorem calculate_max_turns_antitone_witness :
    (0 < cfgW.min_trace_width ∧ (0:ℚ) ≤ cfgW.min_trace_spacing ∧
     cfgW.min_trace_width ≤ 1/10 ∧ (1/10 : ℚ) < 2/10 ∧ (2/10 : ℚ) ≤ cfgW.max_trace_width) ∧
    calculate_max_turns cfgW (2/10) ≤ calculate_max_turns cfgW (1/10) :=
  ⟨⟨by norm_num [cfgW], by norm_num [cfgW], by norm_num [cfgW], by norm_num,
     by norm_num [cfgW]⟩,
   calculate_max_turns_antitone cfgW (1/10) (2/10) (by norm_num [cfgW]) (by norm_num [cfgW])
     (by norm_num [cfgW]) (by norm_num) (by norm_num [cfgW])⟩

/-- C7 counterexample: at cfg7 (outer rectangle 1/10 by 1), turn index 1 and
    width 1/10, the inward offset has crossed the keepout in one dimension
    only and calculate_area returns a strictly negative value instead of the
    claimed clamped zero. -/
theorem calculate_area_negative : calculate_area cfg7 1 (1/10) < 0 := by
  simp only [calculate_area, cfg7, cfgW]
  norm_num

/-- C7 (amended): calculate_area is the unclamped signed product of the
    offset rectangle dimensions, which can be negative for deep turn
    indices; for every turn index actually used by the program, i.e. below
    calculate_max_turns, it is nonnegative (given a positive width,
    nonnegative spacing and nonnegative board dimensions). -/
theorem calculate_area_nonneg_in_range (cfg : PCBConfig) (k : ℕ) (w : ℚ)
    (hw : 0 < w) (hs : 0 ≤ cfg.min_trace_spacing)
    (hiL : 0 ≤ cfg.inner_length) (hiW : 0 ≤ cfg.inner_width)
    (hoL : 0 ≤ cfg.outer_length) (hoW : 0 ≤ cfg.outer_width)
    (hk : (k : ℤ) < calculate_max_turns cfg w) :
    0 ≤ calculate_area cfg k w := by
  simp only [calculate_max_turns, if_neg (not_le.mpr hw)] at hk
  by_cases hg : ((cfg.outer_length - (cfg.inner_length + 2 * (w + 2 * cfg.min_trace_spacing))) / 2 ≤ 0 ∨
      (cfg.outer_width - (cfg.inner_width + 2 * (w + 2 * cfg.min_trace_spacing))) / 2 ≤ 0)
  · rw [if_pos hg] at hk
    exact absurd hk (not_lt.mpr (Int.natCast_nonneg k))
  · rw [if_neg hg] at hk
    push_neg at hg
    obtain ⟨hah, haw⟩ := hg
    have hp : 0 < w + cfg.min_trace_spacing := by linarith
    rcases Nat.eq_zero_or_pos k with hk0 | hkpos
    · subst hk0
      simp only [calculate_area, Nat.cast_zero, zero_mul, mul_zero, sub_zero]
      exact mul_nonneg hoL hoW
    · have hk1 : 1 ≤ (k : ℤ) := by exact_mod_cast hkpos
      have hm : (k : ℤ) <
          min (pyint ((cfg.outer_length - (cfg.inner_length + 2 * (w + 2 * cfg.min_trace_spacing))) / 2
                / (w + cfg.min_trace_spacing)))
              (pyint ((cfg.outer_width - (cfg.inner_width + 2 * (w + 2 * cfg.min_trace_spacing))) / 2
                / (w + cfg.min_trace_spacing))) := by
        rcases lt_max_iff.mp hk with h | h
        · omega
        · exact h
      have hkh := lt_of_lt_of_le hm (min_le_left _ _)
      have hkw := lt_of_lt_of_le hm (min_le_right _ _)
      rw [pyint_of_nonneg (div_nonneg hah.le hp.le)] at hkh
      rw [pyint_of_nonneg (div_nonneg haw.le hp.le)] at hkw
      have h1 : ((k : ℚ) + 1) ≤
          (cfg.outer_length - (cfg.inner_length + 2 * (w + 2 * cfg.min_trace_spacing))) / 2
            / (w + cfg.min_trace_spacing) := by
        have hle : (k : ℤ) + 1 ≤
            ⌊(cfg.outer_length - (cfg.inner_length + 2 * (w + 2 * cfg.min_trace_spacing))) / 2
              / (w + cfg.min_trace_spacing)⌋ := by omega
        have h2 := Int.le_floor.mp hle
        push_cast at h2
        exact h2
      have h2 : ((k : ℚ) + 1) ≤
          (cfg.outer_width - (cfg.inner_width + 2 * (w + 2 * cfg.min_trace_spacing))) / 2
            / (w + cfg.min_trace_spacing) := by
        have hle : (k : ℤ) + 1 ≤
            ⌊(cfg.outer_width - (cfg.inner_width + 2 * (w + 2 * cfg.min_trace_spacing))) / 2
              / (w + cfg.min_trace_spacing)⌋ := by omega
        have h3 := Int.le_floor.mp hle
        push_cast at h3
        exact h3
      have hmul1 : ((k : ℚ) + 1) * (w + cfg.min_trace_spacing) ≤
          (cfg.outer_length - (cfg.inner_length + 2 * (w + 2 * cfg.min_trace_spacing))) / 2 :=
        (le_div_iff₀ hp).mp h1
      have hmul2 : ((k : ℚ) + 1) * (w + cfg.min_trace_spacing) ≤
          (cfg.outer_width - (cfg.inner_width + 2 * (w + 2 * cfg.min_trace_spacing))) / 2 :=
        (le_div_iff₀ hp).mp h2
      have hexp : ((k : ℚ) + 1) * (w + cfg.min_trace_spacing) =
          (k : ℚ) * (w + cfg.min_trace_spacing) + (w + cfg.min_trace_spacing) := by ring
      simp only [calculate_area]
      have hf1 : 0 ≤ cfg.outer_length - 2 * ((k : ℚ) * (w + cfg.min_trace_spacing)) := by
        linarith
      have hf2 : 0 ≤ cfg.outer_width - 2 * ((k : ℚ) * (w + cfg.min_trace_spacing)) := by
        linarith
      exact mul_nonneg hf1 hf2

/-- C7 witness: the in-range nonnegativity instantiated at cfgW with turn
    index 3 and width 1/10 (where the turn count is 4). -/
theorem calculate_area_nonneg_in_range_witness :
    ((0:ℚ) < 1/10 ∧ (0:ℚ) ≤ cfgW.min_trace_spacing ∧ (0:ℚ) ≤ cfgW.inner_length ∧
     (0:ℚ) ≤ cfgW.inner_width ∧ (0:ℚ) ≤ cfgW.outer_length ∧ (0:ℚ) ≤ cfgW.outer_width ∧
     ((3:ℕ) : ℤ) < calculate_max_turns cfgW (1/10)) ∧
    0 ≤ calculate_area cfgW 3 (1/10) :=
  ⟨⟨by norm_num, by norm_num [cfgW], by norm_num [cfgW], by norm_num [cfgW],
     by norm_num [cfgW], by norm_num [cfgW], by rw [mtW]; norm_num⟩,
   calculate_area_nonneg_in_range cfgW 3 (1/10) (by norm_num) (by norm_num [cfgW])
     (by norm_num [cfgW]) (by norm_num [cfgW]) (by norm_num [cfgW]) (by norm_num [cfgW])
     (by rw [mtW]; norm_num)⟩

/-- C2 counterexample: at cfgX the width 1/10 lies inside the manufacturing
    range but produces zero turns; check_constraints still returns True, so
    the claimed five-way iff (which includes maxTurns at least 1) is false
    on the code. -/
theorem check_constraints_true_with_zero_turns :
    check_constraints cfgX (1/10) ∧ calculate_max_turns cfgX (1/10) = 0 :=
  ⟨check_constraints_cfgX, mtX⟩

/-- C2 (amended): check_constraints holds iff the width is in range, the
    current density is within the limit, and ambient plus rise is at most
    the operating limit; the power bound holds for every candidate as a
    consequence of the current law (so it may be conjoined), but a minimum
    turn count is not checked and does not follow. -/
theorem check_constraints_characterization (cfg : PCBConfig) (w : ℚ)
    (hV : 0 < cfg.voltage) (hP : 0 ≤ cfg.max_power) :
    check_constraints cfg w ↔
      ((cfg.min_trace_width ≤ w ∧ w ≤ cfg.max_trace_width) ∧
       currentOf cfg w / (w * copper_thickness cfg) ≤ cfg.current_density_limit ∧
       (cfg.ambient_temp : ℝ) + calculate_temperature_rise cfg ((powerOf cfg w : ℚ) : ℝ)
           ≤ (cfg.operating_temp : ℝ) ∧
       powerOf cfg w ≤ cfg.max_power) := by
  simp only [check_constraints]
  constructor
  · rintro ⟨h1, h2, h3⟩
    exact ⟨h1, h2, by linarith, powerOf_le_max cfg w hV hP⟩
  · rintro ⟨h1, h2, h3, _⟩
    exact ⟨h1, h2, by linarith⟩

/-- C2 witness: the characterization instantiated at cfgW and width 1/10. -/
theorem check_constraints_characterization_witness :
    ((0:ℚ) < cfgW.voltage ∧ (0:ℚ) ≤ cfgW.max_power) ∧
    (check_constraints cfgW (1/10) ↔
      ((cfgW.min_trace_width ≤ 1/10 ∧ (1/10 : ℚ) ≤ cfgW.max_trace_width) ∧
       currentOf cfgW (1/10) / (1/10 * copper_thickness cfgW) ≤ cfgW.current_density_limit ∧
       (cfgW.ambient_temp : ℝ) + calculate_temperature_rise cfgW ((powerOf cfgW (1/10) : ℚ) : ℝ)
           ≤ (cfgW.operating_temp : ℝ) ∧
       powerOf cfgW (1/10) ≤ cfgW.max_power)) :=
  ⟨⟨by norm_num [cfgW], by norm_num [cfgW]⟩,
   check_constraints_characterization cfgW (1/10) (by norm_num [cfgW]) (by norm_num [cfgW])⟩

/-- C3: with cfg3 (ambient 50 above the operating limit 0) no sampled width
    is feasible, and optimize reaches the summary min-reduction over the
    empty masked array, which raises ValueError in numpy; the model returns
    the corresponding error instead of the degenerate zero result claimed. -/
theorem optimize_raises_on_all_infeasible :
    optimize cfg3 [1/10] =
      Except.error "zero-size array to reduction operation minimum which has no identity" := by
  have h1 : feasibleList cfg3 [1/10] = [] := by
    rw [feasibleList_cons_neg _ not_check_constraints_cfg3, feasibleList_nil]
  simp only [optimize, h1, List.map_nil]
  rfl

/-- C4 counterexample: the temperature rise is unchanged when only the
    configured ambient temperature changes (cfgW has ambient 0; the variant
    has ambient 100), refuting the claim that the heat balance uses the
    configured ambient and that the result depends on it. -/
theorem temperature_rise_ignores_ambient :
    calculate_temperature_rise { cfgW with ambient_temp := 100 } 1 =
        calculate_temperature_rise cfgW 1 ∧
    ({ cfgW with ambient_temp := 100 } : PCBConfig).ambient_temp ≠ cfgW.ambient_temp :=
  ⟨rfl, by norm_num [cfgW]⟩

/-- C4 (amended): for nonnegative power and a positive radiating area the
    returned rise solves the radiative heat balance with the hard-coded
    space temperature 273.15 K in place of the configured ambient (the
    solver seed is 273.15 + 5), and the result is independent of the
    configured ambient_temp. -/
theorem temperature_rise_heat_balance (cfg : PCBConfig) (P : ℝ)
    (hP : 0 ≤ P) (hA : 0 < radiating_area cfg) :
    0.9 * stefan_boltzmann * ((radiating_area cfg : ℚ) : ℝ) *
        ((calculate_temperature_rise cfg P + 273.15) ^ 4 - 273.15 ^ 4) = P ∧
    ∀ a : ℚ, calculate_temperature_rise { cfg with ambient_temp := a } P =
        calculate_temperature_rise cfg P := by
  constructor
  · simp only [calculate_temperature_rise]
    have hden : (0:ℝ) < 0.9 * stefan_boltzmann * ((radiating_area cfg : ℚ) : ℝ) :=
      mul_pos (mul_pos (by norm_num) stefan_boltzmann_pos) (by exact_mod_cast hA)
    have hdiv : 0 ≤ P / (0.9 * stefan_boltzmann * ((radiating_area cfg : ℚ) : ℝ)) :=
      div_nonneg hP hden.le
    have h4 : (0:ℝ) ≤ 273.15 ^ 4 := by positivity
    have hc0 : 0 ≤ P / (0.9 * stefan_boltzmann * ((radiating_area cfg : ℚ) : ℝ)) + 273.15 ^ 4 := by
      linarith
    have hsub : ∀ x : ℝ, x - 273.15 + 273.15 = x := fun x => by ring
    rw [hsub]
    have hpow : Real.sqrt (Real.sqrt (P / (0.9 * stefan_boltzmann
        * ((radiating_area cfg : ℚ) : ℝ)) + 273.15 ^ 4)) ^ 4 =
        P / (0.9 * stefan_boltzmann * ((radiating_area cfg : ℚ) : ℝ)) + 273.15 ^ 4 := by
      have h1 : ∀ x : ℝ, x ^ 4 = (x ^ 2) ^ 2 := fun x => by ring
      rw [h1, Real.sq_sqrt (Real.sqrt_nonneg _), Real.sq_sqrt hc0]
    rw [hpow]
    field_simp
    ring
  · intro a
    rfl

/-- C4 witness: the heat balance law instantiated at cfgW with power 1. -/
theorem temperature_rise_heat_balance_witness :
    ((0:ℝ) ≤ 1 ∧ 0 < radiating_area cfgW) ∧
    (0.9 * stefan_boltzmann * ((radiating_area cfgW : ℚ) : ℝ) *
        ((calculate_temperature_rise cfgW 1 + 273.15) ^ 4 - 273.15 ^ 4) = 1 ∧
     ∀ a : ℚ, calculate_temperature_rise { cfgW with ambient_temp := a } 1 =
        calculate_temperature_rise cfgW 1) :=
  ⟨⟨by norm_num, by norm_num [radiating_area, cfgW]⟩,
   temperature_rise_heat_balance cfgW 1 (by norm_num) (by norm_num [radiating_area, cfgW])⟩

/-- C5 counterexample: doubling the coil layer count (num_layers 2 to 3,
    coil layers 1 to 2) at width 1/10 doubles the inductance rather than
    quadrupling it, so the inductance is linear, not quadratic, in the
    number of coil layers. -/
theorem inductance_linear_not_quadratic_in_layers :
    calculate_inductance { cfgW with num_layers := 3 } (1/10) =
        2 * calculate_inductance cfgW (1/10) ∧
    calculate_inductance { cfgW with num_layers := 3 } (1/10) ≠
        4 * calculate_inductance cfgW (1/10) := by
  rw [indW3, indW]
  norm_num

/-- C5 (amended): both the inductance and the magnetic moment scale
    linearly with the number of coil layers: changing only num_layers
    rescales each by the ratio of coil layer counts (stated in
    cross-multiplied form); the Wheeler turn count is squared per layer
    only. -/
theorem inductance_moment_layer_scaling (cfg : PCBConfig) (n : ℤ) (w I : ℚ) :
    calculate_inductance { cfg with num_layers := n } w * ((cfg.num_layers : ℚ) - 1) =
        calculate_inductance cfg w * ((n : ℚ) - 1) ∧
    calculate_magnetic_moment { cfg with num_layers := n } w I * ((cfg.num_layers : ℚ) - 1) =
        calculate_magnetic_moment cfg w I * ((n : ℚ) - 1) := by
  have hmt : calculate_max_turns { cfg with num_layers := n } w = calculate_max_turns cfg w := rfl
  have harea : calculate_area { cfg with num_layers := n } = calculate_area cfg := rfl
  constructor
  · simp only [calculate_inductance, hmt, coil_layers]
    split_ifs with h
    · ring
    · push_cast
      ring
  · simp only [calculate_magnetic_moment, hmt, harea, coil_layers]
    split_ifs with h
    · ring
    · push_cast
      ring

/-- C6: the return path of the thermal solve keeps only the iterate of the
    fsolve output and ignores the convergence flag: an outcome with a
    non-convergence status (ier = 5) yields the same ordinary value as a
    converged one, and equals iterate minus 273.15; no thermal-model error
    is surfaced to the caller. -/
theorem solver_result_used_unconditionally :
    temperature_rise_from_solver cfgW 1 ⟨300, 5⟩ =
        temperature_rise_from_solver cfgW 1 ⟨300, 1⟩ ∧
    temperature_rise_from_solver cfgW 1 ⟨300, 5⟩ = 300 - 273.15 :=
  ⟨rfl, rfl⟩

/-- C9: the sweep is a pure function of the configuration and the sampled
    widths, so identical runs coincide; on a sorted (ascending) sample the
    selected pair is a feasible sampled width whose moment is maximal over
    all feasible sampled widths, and any feasible sampled width attaining
    the same moment is at least the selected width (first-occurrence
    tie-break of np.argmax). -/
theorem optimize_deterministic_first_max (cfg : PCBConfig) (ws : List ℚ)
    (hsort : ws.Pairwise (· ≤ ·)) (w m : ℚ)
    (hok : optimize cfg ws = Except.ok (w, m)) :
    optimize cfg ws = optimize cfg ws ∧
    (w ∈ ws ∧ check_constraints cfg w) ∧
    m = momentAt cfg w ∧
    (∀ x ∈ ws, check_constraints cfg x → momentAt cfg x ≤ m) ∧
    (∀ x ∈ ws, check_constraints cfg x → momentAt cfg x = m → w ≤ x) := by
  simp only [optimize] at hok
  cases harg : argmaxPair ((feasibleList cfg ws).map fun u => (u, momentAt cfg u)) with
  | none =>
      rw [harg] at hok
      exact absurd hok (by simp)
  | some p =>
      rw [harg] at hok
      dsimp only at hok
      have hp : p = (w, m) := by
        simpa using hok
      subst hp
      have hmem0 := argmaxPair_mem harg
      obtain ⟨u, hu, hup⟩ := List.mem_map.mp hmem0
      have huw : u = w := congrArg Prod.fst hup
      subst huw
      have hum : momentAt cfg u = m := congrArg Prod.snd hup
      obtain ⟨hwin, hwcheck⟩ := mem_feasibleList.mp hu
      refine ⟨rfl, ⟨hwin, hwcheck⟩, hum.symm, ?_, ?_⟩
      · intro x hx hcx
        have hxmem : (x, momentAt cfg x) ∈
            (feasibleList cfg ws).map fun v => (v, momentAt cfg v) :=
          List.mem_map_of_mem _ (mem_feasibleList.mpr ⟨hx, hcx⟩)
        have := argmaxPair_le harg _ hxmem
        simpa using this
      · intro x hx hcx hmx
        obtain ⟨l₁, l₂, heq, hlt⟩ := argmaxPair_first harg
        have hxmem : (x, momentAt cfg x) ∈
            (feasibleList cfg ws).map fun v => (v, momentAt cfg v) :=
          List.mem_map_of_mem _ (mem_feasibleList.mpr ⟨hx, hcx⟩)
        rw [heq] at hxmem
        rcases List.mem_append.mp hxmem with h1 | h2
        · have := hlt _ h1
          rw [hmx] at this
          exact absurd this (lt_irrefl m)
        · rcases List.mem_cons.mp h2 with hx1 | hx2
          · have hxw : x = u := congrArg Prod.fst hx1
            exact le_of_eq hxw.symm
          · have hpfeas : (feasibleList cfg ws).Pairwise (· ≤ ·) := feasibleList_pairwise hsort
            have hpw : ((feasibleList cfg ws).map fun v => (v, momentAt cfg v)).Pairwise
                (fun A B : ℚ × ℚ => A.1 ≤ B.1) :=
              hpfeas.map _ (fun a b hab => hab)
            rw [heq] at hpw
            have hrest := (List.pairwise_append.mp hpw).2.1
            have hcons := (List.pairwise_cons.mp hrest).1
            have := hcons _ hx2
            simpa using this

/-- C9 witness: the determinism and tie-break law instantiated at cfgW on
    the sorted singleton sample with width 1/10. -/
theorem optimize_deterministic_first_max_witness :
    optimize cfgW [1/10] = optimize cfgW [1/10] ∧
    ((1/10 : ℚ) ∈ [(1/10 : ℚ)] ∧ check_constraints cfgW (1/10)) ∧
    (27/1450 : ℚ) = momentAt cfgW (1/10) ∧
    (∀ x ∈ [(1/10 : ℚ)], check_constraints cfgW x → momentAt cfgW x ≤ 27/1450) ∧
    (∀ x ∈ [(1/10 : ℚ)], check_constraints cfgW x → momentAt cfgW x = 27/1450 →
        (1/10 : ℚ) ≤ x) :=
  optimize_deterministic_first_max cfgW [1/10] (by simp) (1/10) (27/1450) optimize_cfgW_eval

/-- C10 counterexample: at a negative trace width the density bound is
    negative and calculate_current returns a negative current, outside the
    claimed interval from 0 to max_power / voltage. -/
theorem calculate_current_negative_width : calculate_current cfgW 5 (-1) < 0 := by
  simp only [calculate_current, copper_thickness, cfgW]
  norm_num [min_def]

/-- C10 (amended): for nonnegative trace widths (and positive voltage,
    nonnegative power, density and thickness parameters) the current lies
    in the interval from 0 to max_power / voltage for every finite
    resistance; for every resistance, finite or infinite, the dissipated
    power current times voltage never exceeds max_power, even though
    check_constraints has no explicit power comparison. -/
theorem calculate_current_bounds (cfg : PCBConfig) (w : ℚ)
    (hV : 0 < cfg.voltage) (hP : 0 ≤ cfg.max_power)
    (hJ : 0 ≤ cfg.current_density_limit) (ht : 0 ≤ copper_thickness cfg) (hw : 0 ≤ w) :
    (∀ R : ℚ, 0 ≤ calculate_current cfg R w ∧
        calculate_current cfg R w ≤ cfg.max_power / cfg.voltage) ∧
    (∀ r : Option ℚ, 0 ≤ calculate_current_opt cfg r w ∧
        calculate_current_opt cfg r w * cfg.voltage ≤ cfg.max_power) := by
  refine ⟨fun R => ⟨?_, ?_⟩, fun r => ⟨?_, ?_⟩⟩
  · exact calculate_current_nonneg cfg R w hV hP hJ ht hw
  · exact calculate_current_le_power_bound cfg R w hV hP
  · exact calculate_current_opt_nonneg cfg r w hV hP hJ ht hw
  · exact calculate_current_opt_mul_voltage_le cfg r w hV hP

/-- C10 witness: the current bounds instantiated at cfgW and width 1/10. -/
theorem calculate_current_bounds_witness :
    ((0:ℚ) < cfgW.voltage ∧ (0:ℚ) ≤ cfgW.max_power ∧ (0:ℚ) ≤ cfgW.current_density_limit ∧
     (0:ℚ) ≤ copper_thickness cfgW ∧ (0:ℚ) ≤ 1/10) ∧
    ((∀ R : ℚ, 0 ≤ calculate_current cfgW R (1/10) ∧
        calculate_current cfgW R (1/10) ≤ cfgW.max_power / cfgW.voltage) ∧
     (∀ r : Option ℚ, 0 ≤ calculate_current_opt cfgW r (1/10) ∧
        calculate_current_opt cfgW r (1/10) * cfgW.voltage ≤ cfgW.max_power)) :=
  ⟨⟨by norm_num [cfgW], by norm_num [cfgW], by norm_num [cfgW],
     by norm_num [copper_thickness, cfgW], by norm_num⟩,
   calculate_current_bounds cfgW (1/10) (by norm_num [cfgW]) (by norm_num [cfgW])
     (by norm_num [cfgW]) (by norm_num [copper_thickness, cfgW]) (by norm_num)⟩
